import Mathlib

/-!
Verification of the MCP-2Agent turn orchestrator.

This file gives a shallow embedding of the orchestration core of the
repository (`src/orchestrator.py` and `src/common.py`) and proves the
frozen claims about it.  Modelling conventions:

* Python strings are `String`; the Python string operations the code uses
  (`strip`, `lower`, `split`, `isdigit`, `int(...)`, `in`) are re-implemented
  over `List Char` so that every definition is executable and kernel-reducible.
* Remote services (the OpenAI completion client and the two MCP tool servers)
  are oracle parameters.  Each executor additionally reports the list of
  arguments it sent to its oracle, so "issues no remote call" is a statement
  about that trace.
* A raised `ValueError` is an `Except` error value.
* The CSV turn store (`state.csv` via `load_rows`/`save_rows`) is a `List Row`
  passed in and returned explicitly.
-/

namespace MCPAgent

/-- Whitespace characters recognized by Python's `str.strip()` / `str.split()`. -/
def pySpaceChars : List Char := [' ', '\t', '\n', '\r', '\x0B', '\x0C']

/-- Character-level whitespace test used by the Python string model. -/
def pyIsSpace (c : Char) : Bool := pySpaceChars.contains c

/-- The ten ASCII digit characters. -/
def pyDigitChars : List Char := ['0', '1', '2', '3', '4', '5', '6', '7', '8', '9']

/-- Character-level digit test (ASCII part of Python's `str.isdigit`). -/
def pyIsDigitChar (c : Char) : Bool := pyDigitChars.contains c

/-- Model of Python `str.strip()` on a character list: drop whitespace from
both ends. -/
def pyStripChars (l : List Char) : List Char :=
  ((l.dropWhile pyIsSpace).reverse.dropWhile pyIsSpace).reverse

/-- Model of Python `str.strip()`. -/
def pyStrip (s : String) : String := ⟨pyStripChars s.data⟩

/-- Model of Python `str.isdigit()`: non-empty and all digits. -/
def pyIsDigitStr (s : String) : Bool := !s.data.isEmpty && s.data.all pyIsDigitChar

/-- Numeric value of a digit character. -/
def digitVal (c : Char) : Nat := c.toNat - 48

/-- Value of a digit string read left to right. -/
def digitsVal (l : List Char) : Nat := l.foldl (fun a c => 10 * a + digitVal c) 0

/-- Parse a non-empty all-digit character list as a natural number. -/
def pyToNat (l : List Char) : Option Nat :=
  if !l.isEmpty && l.all pyIsDigitChar then some (digitsVal l) else none

/-- Model of Python `int(s)` on a string: optional surrounding whitespace,
optional sign, decimal digits.  `none` models a raised `ValueError`. -/
def pyInt (s : String) : Option Int :=
  match pyStripChars s.data with
  | [] => none
  | c :: rest =>
    if c = '-' then (pyToNat rest).map (fun n => -(n : Int))
    else if c = '+' then (pyToNat rest).map (fun n => (n : Int))
    else (pyToNat (c :: rest)).map (fun n => (n : Int))

/-- Count maximal nonblank runs; the flag records whether the scan is inside
a word. -/
def countWords : List Char → Bool → Nat
  | [], _ => 0
  | c :: rest, inWord =>
    if pyIsSpace c then countWords rest false
    else (if inWord then 0 else 1) + countWords rest true

/-- Model of Python `len(s.split())`: the number of whitespace-separated words. -/
def pyWordCount (s : String) : Nat := countWords s.data false

/-- Model of Python `str.lower()` (ASCII case folding). -/
def pyLower (s : String) : String := ⟨s.data.map Char.toLower⟩

/-- Model of Python `needle in hay` on strings: contiguous substring test. -/
def strContainsSub (hay needle : String) : Bool :=
  hay.data.tails.any (fun t => needle.data.isPrefixOf t)

/-- Round to the nearest integer, ties to the even integer: the rounding of
Python's builtin `round`. -/
def roundHalfEven (q : ℚ) : ℤ :=
  if q - ⌊q⌋ < 1 / 2 then ⌊q⌋
  else if 1 / 2 < q - ⌊q⌋ then ⌊q⌋ + 1
  else if 2 ∣ ⌊q⌋ then ⌊q⌋ else ⌊q⌋ + 1

/-- Model of Python `round(q, 2)`. -/
def pyRound2 (q : ℚ) : ℚ := (roundHalfEven (q * 100) : ℚ) / 100

/-- Embedding of `common.confidence_from_text`:
`round(min(0.95, max(0.4, len(text.split()) / 200)), 2)`. -/
def confidence_from_text (text : String) : ℚ :=
  pyRound2 (min 0.95 (max 0.4 ((pyWordCount text : ℚ) / 200)))

/-- One persisted turn: a row of `state.csv` with the canonical `FIELDS` of
`orchestrator.py`.  All values are strings, as produced by `csv.DictReader`. -/
structure Row where
  query : String
  turn : String
  search_results : String
  search_confidence : String
  summary : String
  summary_confidence : String
  reviewed_summary : String
  review_confidence : String
  insights : String
  insights_confidence : String
deriving DecidableEq

/-- A row with every field empty: `dict.fromkeys(FIELDS, "")`. -/
def emptyRow : Row := ⟨"", "", "", "", "", "", "", "", "", ""⟩

/-- Result of a tool-service call (`{text, confidence, source}`; the `source`
field is never read by the orchestrator and is omitted). -/
structure ToolResp where
  text : String
  confidence : ℚ
deriving DecidableEq

/-- Stand-in for Python `str()` applied to a confidence value.  No claim
depends on the exact decimal rendering, only on this being a deterministic
function of the value. -/
def floatStr (q : ℚ) : String :=
  (if q < 0 then "-" else "") ++ Nat.repr q.num.natAbs ++ "/" ++ Nat.repr q.den

/-- Model of Python `str(n)` for a non-negative turn number. -/
def natStr (n : Nat) : String := Nat.repr n

/-- Embedding of
`max([int(r["turn"]) for r in rows if r.get("turn","").strip().isdigit()], default=0) + 1`
(orchestrator.py lines 287 and 444).  All listed values are non-negative, so
Python's `max(..., default=0)` coincides with a `Nat.max` fold from `0`. -/
def newTurn (rows : List Row) : Nat :=
  (((rows.filter fun r => pyIsDigitStr (pyStrip r.turn)).map
      fun r => (pyToNat (pyStripChars r.turn.data)).getD 0).foldl Nat.max 0) + 1

/-- The sort key `int(x.get("turn", "0"))` of `get_or_create_row` and
`execute_summarize`.  It is only ever evaluated after a successful parse
guard, so the `getD 0` default is never exercised. -/
def turnKeyI (r : Row) : Int := (pyInt r.turn).getD 0

/-- The canonical intent labels of `detect_intent_with_llm`. -/
def VALID_INTENTS : List String := ["search", "summarize", "conversation_query"]

/-- Embedding of `detect_intent_with_llm` (orchestrator.py lines 29-78).  The
completion call is modeled by its outcome `resp`: `none` when the call raises,
`some raw` for a returned message.  Prompt construction only feeds the oracle
and is not modeled. -/
def detect_intent_with_llm (resp : Option String) : String :=
  match resp with
  | none => "search"
  | some raw =>
    let text := pyLower (pyStrip raw)
    match VALID_INTENTS.find? (fun intent => strContainsSub text intent) with
    | some intent => intent
    | none => "search"

/-- A parsed JSON value as returned by `json.loads`.  Only the keys of an
object are kept, because the planner at most iterates over a dict, which
yields its keys. -/
inductive JValue where
  | jstr (s : String)
  | jnum (q : ℚ)
  | jbool (b : Bool)
  | jnull
  | jarr (xs : List JValue)
  | jobj (keys : List String)

/-- Python iteration `for s in stages`: lists yield their elements, strings
their characters (as length-1 strings), dicts their keys; any other value
raises `TypeError` (`none`), which the surrounding `except` turns into the
fallback. -/
def pyIterElems : JValue → Option (List JValue)
  | .jarr xs => some xs
  | .jstr s => some (s.data.map fun c => .jstr ⟨[c]⟩)
  | .jobj keys => some (keys.map .jstr)
  | _ => none

/-- The valid stage names of `plan_execution_stages`. -/
def VALID_STAGES : List String := ["search", "summarize"]

/-- The deterministic fallback of `plan_execution_stages`
(orchestrator.py lines 158-163 and 168-172). -/
def planFallback (intent : String) : List String :=
  if intent = "search" then ["search"]
  else if intent = "summarize" then ["summarize"]
  else ["search"]

/-- Embedding of `plan_execution_stages` (orchestrator.py lines 81-172).  The
completion call, the code-fence stripping and `json.loads` are modeled by
their joint outcome `resp`: `none` when the call raises, `some none` when the
raw response is unparsable JSON, `some (some v)` for a parsed value `v`. -/
def plan_execution_stages (intent : String) (resp : Option (Option JValue)) : List String :=
  match resp with
  | none => planFallback intent
  | some none => planFallback intent
  | some (some v) =>
    match pyIterElems v with
    | none => planFallback intent
    | some elems =>
      let stages := elems.filterMap fun s =>
        match s with
        | .jstr t => if VALID_STAGES.contains t then some t else none
        | _ => none
      if stages.isEmpty then planFallback intent else stages

/-- Decidable equality of `Except` results, used to evaluate the embedding on
concrete inputs. -/
instance {ε α : Type} [DecidableEq ε] [DecidableEq α] : DecidableEq (Except ε α) := fun a b =>
  match a, b with
  | .ok x, .ok y =>
    if h : x = y then isTrue (by rw [h]) else isFalse (by intro hc; cases hc; exact h rfl)
  | .error x, .error y =>
    if h : x = y then isTrue (by rw [h]) else isFalse (by intro hc; cases hc; exact h rfl)
  | .ok _, .error _ => isFalse (by intro hc; cases hc)
  | .error _, .ok _ => isFalse (by intro hc; cases hc)

/-- A `ValueError` raised inside the orchestration path: either the explicit
"Cannot summarize: no previous agent responses available" error of
`execute_summarize` (carrying the in-flight row at the moment of the raise,
which the raise leaves unmutated), or a failed `int()` parse of a turn field. -/
inductive PyErr where
  | noPriorContent (row : Row)
  | intParse
deriving DecidableEq

/-- Python `max(l, key=...)` over turn keys on a non-empty list: the first
element attaining the maximal key.  The `[]` case is never reached by its
caller, which guards on non-emptiness. -/
def pyMaxByTurn : List Row → Row
  | [] => emptyRow
  | r :: rest => rest.foldl (fun b a => if turnKeyI b < turnKeyI a then a else b) r

/-- The fall-through part of `get_or_create_row` (orchestrator.py lines
282-290): reuse the latest row with the exact same query text, else create a
fresh row numbered `newTurn rows`. -/
def getOrCreateTail (query : String) (rows : List Row) : Except PyErr (Row × List Row) :=
  let matching := rows.filter fun r => r.query = query
  if matching.isEmpty then
    .ok ({ emptyRow with query := query, turn := natStr (newTurn rows) }, rows)
  else if matching.all (fun r => (pyInt r.turn).isSome) then
    .ok (pyMaxByTurn matching, rows)
  else .error .intParse

/-- Embedding of `get_or_create_row` (orchestrator.py lines 260-290).
`load_rows()` is modeled by the `rows` argument.  Python's `max`/`sorted`
evaluate the `int` key on every element first (a non-numeric turn raises
`ValueError`, modeled by the `mapM` guard), and `sorted(..., reverse=True)` is
the stable descending sort, modeled by `List.insertionSort` with the flipped
key order.  The `[]` match arm is unreachable: the sorted list is a
permutation of the non-empty `rows_with_context`. -/
def get_or_create_row (query : String) (intent : Option String) (rows : List Row) :
    Except PyErr (Row × List Row) :=
  if intent = some "summarize" then
    let rows_with_context := rows.filter fun r => pyStrip r.search_results != ""
    if rows_with_context.isEmpty then getOrCreateTail query rows
    else if rows_with_context.all (fun r => (pyInt r.turn).isSome) then
      let latest_n :=
        (rows_with_context.insertionSort fun a b => turnKeyI b ≤ turnKeyI a).take 3
      match latest_n with
      | row0 :: _ => .ok ({ row0 with query := query }, rows)
      | [] => .error .intParse
    else .error .intParse
  else getOrCreateTail query rows

/-- Embedding of `execute_search` (orchestrator.py lines 293-301).  The MCP
search client is the oracle `search`; the second component is the trace of
queries sent to it. -/
def execute_search (search : String → ToolResp) (query : String) (row : Row) :
    Row × List String :=
  if row.search_results ≠ "" then (row, [])
  else
    let r := search query
    ({ row with search_results := r.text, search_confidence := floatStr r.confidence },
     [query])

/-- An entry of the transient `_summarizing_messages` list. -/
structure SummMsg where
  query : String
  summary : String
  turn : String
deriving DecidableEq

/-- Python `content[:200] + "..." if len(content) > 200 else content`. -/
def truncate200 (s : String) : String :=
  if s.data.length > 200 then (⟨s.data.take 200⟩ : String) ++ "..." else s

/-- Python `r.get("summary", "") or r.get("search_results", "")`. -/
def pickContent (r : Row) : String :=
  if r.summary ≠ "" then r.summary else r.search_results

/-- The row filter of `execute_summarize` (orchestrator.py line 314):
non-blank search results or summary. -/
def hasContentStrip (r : Row) : Bool :=
  (pyStrip r.search_results != "") || (pyStrip r.summary != "")

/-- Embedding of `execute_summarize` (orchestrator.py lines 304-345).
`load_rows()` is the `store` argument; the condensation client is the oracle
`summarize`.  The result carries the updated row, the trace of `documents`
arguments sent to the client, and the transient `_summarizing_messages` value
(`none` when the stage was a no-op and the key was not written). -/
def execute_summarize (summarize : List String → ToolResp) (store : List Row) (row : Row) :
    Except PyErr (Row × List (List String) × Option (List SummMsg)) :=
  if row.summary ≠ "" then .ok (row, [], none)
  else
    let rows_with_content := store.filter hasContentStrip
    if rows_with_content.isEmpty then .error (.noPriorContent row)
    else if rows_with_content.all (fun r => (pyInt r.turn).isSome) then
      let sorted_rows := rows_with_content.insertionSort fun a b => turnKeyI a ≤ turnKeyI b
      let last_3 := sorted_rows.drop (sorted_rows.length - 3)
      let messages := last_3.map fun r => SummMsg.mk r.query (truncate200 (pickContent r)) r.turn
      let combined_text := String.intercalate "\n\n"
        (((last_3.map pickContent).enum).map fun p => "Response " ++ natStr (p.1 + 1) ++ ": " ++ p.2)
      let resp := summarize [combined_text]
      .ok ({ row with summary := resp.text, summary_confidence := floatStr resp.confidence },
           [[combined_text]], some messages)
    else .error .intParse

/-- The fixed advisory answer of `generate_conversation_response` for an
empty history (orchestrator.py lines 359-363). -/
def ADVISORY_TEXT : String :=
  "I don't have any previous conversation history to reference. Please start a new search or query."

/-- Result of the conversation-query handler. -/
structure ConvResp where
  text : String
  confidence : ℚ
deriving DecidableEq

/-- Embedding of `generate_conversation_response` (orchestrator.py lines
348-409).  The completion call is the oracle `resp` (`none` models a raised
exception; the exception text interpolated into the error answer is elided);
the second component counts remote calls issued.  The `query` argument only
feeds the prompt sent to the oracle. -/
def generate_conversation_response (resp : Option String) (query : String)
    (history : List Row) : ConvResp × Nat :=
  if history.isEmpty then
    ({ text := ADVISORY_TEXT, confidence := 1 }, 0)
  else
    match resp with
    | some raw =>
      let text := pyStrip raw
      ({ text := text, confidence := confidence_from_text text }, 1)
    | none =>
      ({ text := "I encountered an error while processing your question about previous conversations: "
           ++ query.take 0,
         confidence := 1 / 2 }, 1)

/-- Embedding of the merge loop of `orchestrate` (orchestrator.py lines
472-480): replace the first row whose `turn` string equals the new row's turn,
else append at the end. -/
def merge_row : List Row → Row → List Row
  | [], row => [row]
  | r :: rest, row => if r.turn = row.turn then row :: rest else r :: merge_row rest row

/-- The external services reachable from `orchestrate`, modeled as oracles
fixed for one request: the completion outcomes for intent detection, planning
and conversation answering, and the two MCP tool clients. -/
structure Oracles where
  intentResp : Option String
  planResp : Option (Option JValue)
  convResp : Option String
  search : String → ToolResp
  summarize : List String → ToolResp

/-- In-flight state of the stage loop of `orchestrate` (orchestrator.py lines
460-470). -/
structure StageState where
  row : Row
  executed : List String
  searchCalls : List String
  summCalls : List (List String)
  msgsKey : Option (List SummMsg)
deriving DecidableEq

/-- One iteration of the stage loop.  The loop appends `"search"` or
`"summary"` to `executed_stages` even when the executor skipped as a no-op,
exactly as the source does. -/
def runStage (o : Oracles) (query : String) (store : List Row) (st : StageState)
    (stage : String) : Except PyErr StageState :=
  if stage = "search" then
    let res := execute_search o.search query st.row
    .ok { st with row := res.1, executed := st.executed ++ ["search"],
                  searchCalls := st.searchCalls ++ res.2 }
  else if stage = "summarize" then
    match execute_summarize o.summarize store st.row with
    | .error e => .error e
    | .ok (row, calls, msgs) =>
      .ok { st with row := row, executed := st.executed ++ ["summary"],
                    summCalls := st.summCalls ++ calls,
                    msgsKey := match msgs with | some m => some m | none => st.msgsKey }
  else .ok st

/-- The stage loop of `orchestrate`. -/
def runStages (o : Oracles) (query : String) (store : List Row) :
    List String → StageState → Except PyErr StageState
  | [], st => .ok st
  | stage :: rest, st =>
    match runStage o query store st stage with
    | .error e => .error e
    | .ok st' => runStages o query store rest st'

/-- The observable outcome of one `orchestrate` call: the returned row, the
store contents written by `save_rows` (which drops the transient keys), the
planning metadata, and the traces of remote calls. -/
structure OrchResult where
  row : Row
  saved : List Row
  planned : List String
  executed : List String
  searchCalls : List String
  summCalls : List (List String)
  convCalls : Nat
  msgsKey : Option (List SummMsg)
deriving DecidableEq

/-- Embedding of `orchestrate` (orchestrator.py lines 412-489).  The on-disk
store read by `load_rows()` (the `store` argument) is not re-written before
the final `save_rows`, so the loads inside `get_or_create_row` and
`execute_summarize` observe the same contents. -/
def orchestrate (o : Oracles) (query : String) (intentArg : Option String)
    (store : List Row) : Except PyErr OrchResult :=
  let rows := store
  let history := rows.drop (rows.length - 5)
  let intent := match intentArg with
    | some i => i
    | none => detect_intent_with_llm o.intentResp
  if intent = "conversation_query" then
    let res := generate_conversation_response o.convResp query history
    let row := { emptyRow with
      query := query, turn := natStr (newTurn rows),
      summary := res.1.text, summary_confidence := floatStr res.1.confidence }
    .ok { row := row, saved := rows ++ [row],
          planned := ["conversation_query"], executed := ["conversation_query"],
          searchCalls := [], summCalls := [], convCalls := res.2, msgsKey := none }
  else
    match get_or_create_row query (some intent) rows with
    | .error e => .error e
    | .ok (row0, rows1) =>
      let planned := plan_execution_stages intent o.planResp
      match runStages o query rows1 planned
          { row := row0, executed := [], searchCalls := [], summCalls := [], msgsKey := none } with
      | .error e => .error e
      | .ok st =>
        .ok { row := st.row, saved := merge_row rows1 st.row,
              planned := planned, executed := st.executed,
              searchCalls := st.searchCalls, summCalls := st.summCalls,
              convCalls := 0, msgsKey := st.msgsKey }

/-! ### Spec-side definitions

Definitions below transcribe the wording of the spec claims, to be compared
with the source-side embedding above. -/

/-- Spec-side clamp: `clamp(x, lo, hi) = max lo (min x hi)`. -/
def specClamp (x lo hi : ℚ) : ℚ := max lo (min x hi)

/-- Spec-side confidence formula of claim C8:
`clamp(word_count(text) / 200, 0.4, 0.95)` rounded to 2 decimal places. -/
def specConfidence (text : String) : ℚ :=
  pyRound2 (specClamp ((pyWordCount text : ℚ) / 200) 0.4 0.95)

/-- Spec-side reading of the intent parser (claim C7): case-insensitive
substring match against the three canonical labels in fixed priority order,
`"search"` when no label occurs or when the call failed. -/
def specIntentOf : Option String → String
  | none => "search"
  | some raw =>
    let t := pyLower (pyStrip raw)
    if strContainsSub t "search" then "search"
    else if strContainsSub t "summarize" then "summarize"
    else if strContainsSub t "conversation_query" then "conversation_query"
    else "search"

/-- Spec-side planner fallback of claim C6: `["search"]` for intent
`"search"`, `["summarize"]` for intent `"summarize"`, `["search"]` otherwise. -/
def specFallbackStages (intent : String) : List String :=
  if intent = "search" then ["search"]
  else if intent = "summarize" then ["summarize"]
  else ["search"]

/-- Spec-side filter of claim C6: the parsed list restricted to valid stage
names, order preserved. -/
def specValidFilter (xs : List JValue) : List String :=
  xs.filterMap fun s =>
    match s with
    | .jstr t => if t ∈ VALID_STAGES then some t else none
    | _ => none

/-- Turn number of a row as the spec reads it: the value of its digit-string
`turn` field (with `0` for rows the numbering claims exclude by hypothesis). -/
def turnNumber (r : Row) : Nat := (pyToNat r.turn.data).getD 0

/-- Spec-side content test of claim C1: `retrieval_text` (search_results) or
`summary_text` (summary) is non-empty. -/
def hasContentLit (r : Row) : Bool := (r.search_results != "") || (r.summary != "")

/-- Spec-side selection of claim C1: the stored turns with content, stably
sorted by ascending turn number. -/
def specSelected (store : List Row) : List Row :=
  (store.filter hasContentLit).insertionSort fun a b => turnNumber a ≤ turnNumber b

/-- The last `n` elements of a list, order preserved. -/
def lastN (n : Nat) (l : List Row) : List Row := l.drop (l.length - n)

/-- Spec-side combined document of claim C1: the selected turns' texts labeled
`Response i: <text>` in selection order, joined by blank lines. -/
def specCombined (store : List Row) : String :=
  String.intercalate "\n\n"
    ((((lastN 3 (specSelected store)).map pickContent).enum).map
      fun p => "Response " ++ natStr (p.1 + 1) ++ ": " ++ p.2)

/-- Spec-side turn numbering of claim C3: one plus the maximum existing
numeric turn number, ignoring rows whose turn field is not a digit string,
with maximum `0` for an empty store. -/
def specNewTurnNumber (rows : List Row) : Nat :=
  ((rows.filterMap fun r => pyToNat (pyStrip r.turn).data).foldl Nat.max 0) + 1

/-- A row none of whose content fields is non-empty yet whitespace-only.  The
spec reads "non-empty" where the code tests non-blank (`.strip()`); on stores
without whitespace-only fields the two coincide. -/
def noBlankFields (r : Row) : Prop :=
  (r.search_results ≠ "" → pyStrip r.search_results ≠ "") ∧
  (r.summary ≠ "" → pyStrip r.summary ≠ "")

instance (r : Row) : Decidable (noBlankFields r) := by
  unfold noBlankFields
  infer_instance

/-! ### Concrete fixtures used by the witnesses -/

/-- A turn with the given query, turn number, search results and summary, all
other fields empty. -/
def mkRow (q t sr sm : String) : Row :=
  { emptyRow with query := q, turn := t, search_results := sr, summary := sm }

/-- A five-turn store in which only turns 2, 3 and 5 carry content. -/
def store5 : List Row :=
  [mkRow "q1" "1" "" "", mkRow "q5" "5" "E" "", mkRow "q2" "2" "B" "",
   mkRow "q3" "3" "" "C", mkRow "q4" "4" "" ""]

/-- A constant search oracle answering with the query echoed back. -/
def echoSearch : String → ToolResp := fun q => ⟨"R:" ++ q, 1⟩

/-- A constant condensation oracle joining its documents. -/
def joinSummarize : List String → ToolResp := fun docs => ⟨String.intercalate "|" docs, 1⟩

/-- An oracle bundle whose planner call fails (forcing the deterministic
fallback) and whose tool clients are the constant oracles above. -/
def plainOracles : Oracles := ⟨none, none, some "resp", echoSearch, joinSummarize⟩

/-- The turn produced by a search run of the demo query over the empty store. -/
def demoRow : Row :=
  { emptyRow with query := "weather", turn := "1", search_results := "R:weather",
                  search_confidence := floatStr 1 }

/-- The orchestration outcome of that search run. -/
def demoRes : OrchResult := ⟨demoRow, [demoRow], ["search"], ["search"], ["weather"], [], 0, none⟩

/-! ### Helper lemmas: rounding -/

theorem roundHalfEven_cases (q : ℚ) :
    roundHalfEven q = ⌊q⌋ ∨ roundHalfEven q = ⌊q⌋ + 1 := by
  unfold roundHalfEven
  split
  · exact Or.inl rfl
  split
  · exact Or.inr rfl
  split
  · exact Or.inl rfl
  · exact Or.inr rfl

theorem floor_le_roundHalfEven (q : ℚ) : ⌊q⌋ ≤ roundHalfEven q := by
  rcases roundHalfEven_cases q with h | h <;> omega

theorem roundHalfEven_ge (q : ℚ) (b : ℤ) (h : (b : ℚ) ≤ q) : b ≤ roundHalfEven q :=
  le_trans (Int.le_floor.mpr h) (floor_le_roundHalfEven q)

theorem roundHalfEven_le (q : ℚ) (b : ℤ) (h : q ≤ (b : ℚ)) : roundHalfEven q ≤ b := by
  have hfl : ⌊q⌋ ≤ b := Int.floor_le_floor h |>.trans_eq (Int.floor_intCast b)
  unfold roundHalfEven
  split
  · exact hfl
  · rename_i hlt
    have h2 : (1 : ℚ) / 2 ≤ q - ⌊q⌋ := le_of_not_lt hlt
    have h3 : (⌊q⌋ : ℚ) < q := by linarith
    have h4 : ⌊q⌋ < b := by exact_mod_cast h3.trans_le h
    split
    · omega
    split
    · exact hfl
    · omega

theorem pyRound2_bounds {q : ℚ} (h1 : 0.4 ≤ q) (h2 : q ≤ 0.95) :
    0.4 ≤ pyRound2 q ∧ pyRound2 q ≤ 0.95 := by
  have hlo : (40 : ℤ) ≤ roundHalfEven (q * 100) := by
    apply roundHalfEven_ge
    push_cast
    linarith
  have hhi : roundHalfEven (q * 100) ≤ (95 : ℤ) := by
    apply roundHalfEven_le
    push_cast
    linarith
  have hlo' : (40 : ℚ) ≤ (roundHalfEven (q * 100) : ℚ) := by exact_mod_cast hlo
  have hhi' : ((roundHalfEven (q * 100) : ℚ)) ≤ 95 := by exact_mod_cast hhi
  unfold pyRound2
  constructor <;> [linarith; linarith]

theorem pyRound2_fixed_04 : pyRound2 0.4 = 0.4 := by
  have h100 : (0.4 : ℚ) * 100 = ((40 : ℤ) : ℚ) := by norm_num
  have hfl : roundHalfEven ((0.4 : ℚ) * 100) = 40 := by
    unfold roundHalfEven
    rw [h100, Int.floor_intCast]
    norm_num
  unfold pyRound2
  rw [hfl]
  norm_num

/-! ### Helper lemmas: digit strings and `Nat.repr` -/

theorem digitChar_isDigit {n : Nat} (h : n < 10) : pyIsDigitChar (Nat.digitChar n) = true := by
  interval_cases n <;> decide

theorem digitVal_digitChar {n : Nat} (h : n < 10) : digitVal (Nat.digitChar n) = n := by
  interval_cases n <;> decide

theorem digitsVal_append (l : List Char) (c : Char) :
    digitsVal (l ++ [c]) = 10 * digitsVal l + digitVal c := by
  simp [digitsVal, List.foldl_append]

theorem toDigitsCore_spec :
    ∀ (fuel n : Nat) (ds : List Char), n < fuel →
      ∃ digs : List Char, Nat.toDigitsCore 10 fuel n ds = digs ++ ds ∧
        digs ≠ [] ∧ digs.all pyIsDigitChar = true ∧ digitsVal digs = n := by
  intro fuel
  induction fuel with
  | zero => intro n ds h; omega
  | succ fuel ih =>
    intro n ds h
    have hmod : n % 10 < 10 := Nat.mod_lt _ (by omega)
    by_cases h10 : n / 10 = 0
    · refine ⟨[Nat.digitChar (n % 10)], ?_, by simp, ?_, ?_⟩
      · show Nat.toDigitsCore 10 (fuel + 1) n ds = _
        unfold Nat.toDigitsCore
        simp [h10]
      · simp [digitChar_isDigit hmod]
      · have hn : n < 10 := by omega
        have hone : digitsVal [Nat.digitChar (n % 10)] = digitVal (Nat.digitChar (n % 10)) := by
          simp [digitsVal]
        rw [hone, digitVal_digitChar hmod, Nat.mod_eq_of_lt hn]
    · have hn0 : 0 < n := by
        rcases Nat.eq_zero_or_pos n with h0 | h0
        · subst h0; simp at h10
        · exact h0
      have hlt : n / 10 < n := Nat.div_lt_self hn0 (by omega)
      have hfl : n / 10 < fuel := by omega
      obtain ⟨digs, heq, hne, hdig, hval⟩ := ih (n / 10) (Nat.digitChar (n % 10) :: ds) hfl
      refine ⟨digs ++ [Nat.digitChar (n % 10)], ?_, by simp [hne], ?_, ?_⟩
      · show Nat.toDigitsCore 10 (fuel + 1) n ds = _
        unfold Nat.toDigitsCore
        simp only [h10, if_neg h10]
        rw [heq]
        simp
      · simp only [List.all_append, hdig, Bool.true_and]
        simp [digitChar_isDigit hmod]
      · rw [digitsVal_append, hval, digitVal_digitChar hmod]
        omega

theorem natStr_data_spec (n : Nat) :
    (natStr n).data ≠ [] ∧ (natStr n).data.all pyIsDigitChar = true ∧
      digitsVal (natStr n).data = n := by
  obtain ⟨digs, heq, hne, hdig, hval⟩ := toDigitsCore_spec (n + 1) n [] (Nat.lt_succ_self n)
  have hdata : (natStr n).data = digs := by
    show (Nat.repr n).data = digs
    unfold Nat.repr Nat.toDigits
    rw [heq]
    simp [List.asString]
  rw [hdata]
  exact ⟨hne, hdig, hval⟩

theorem pyToNat_natStr (n : Nat) : pyToNat (natStr n).data = some n := by
  obtain ⟨hne, hdig, hval⟩ := natStr_data_spec n
  unfold pyToNat
  rw [if_pos]
  · rw [hval]
  · simp [hdig, List.isEmpty_iff, hne]

theorem pyIsDigitStr_natStr (n : Nat) : pyIsDigitStr (natStr n) = true := by
  obtain ⟨hne, hdig, _⟩ := natStr_data_spec n
  unfold pyIsDigitStr
  simp [hdig, List.isEmpty_iff, hne]

theorem turnNumber_of_natStr {r : Row} {n : Nat} (h : r.turn = natStr n) :
    turnNumber r = n := by
  unfold turnNumber
  rw [h, pyToNat_natStr]
  rfl

theorem not_space_of_digit {c : Char} (h : pyIsDigitChar c = true) : pyIsSpace c = false := by
  have hc : c ∈ pyDigitChars := by
    simpa [pyIsDigitChar, List.contains, List.elem_iff] using h
  fin_cases hc <;> decide

theorem dropWhile_eq_self_of_not {p : Char → Bool} :
    ∀ {l : List Char}, (∀ c ∈ l, p c = false) → l.dropWhile p = l := by
  intro l h
  cases l with
  | nil => rfl
  | cons c cs =>
    rw [List.dropWhile_cons, h c (by simp)]
    simp

theorem pyStripChars_of_digits {l : List Char} (h : l.all pyIsDigitChar = true) :
    pyStripChars l = l := by
  have hmem : ∀ c ∈ l, pyIsSpace c = false := by
    intro c hc
    exact not_space_of_digit (by simpa using (List.all_eq_true.mp h c hc))
  unfold pyStripChars
  rw [dropWhile_eq_self_of_not hmem,
    dropWhile_eq_self_of_not (by intro c hc; exact hmem c (List.mem_reverse.mp hc)),
    List.reverse_reverse]

theorem pyStrip_of_digitStr {s : String} (h : pyIsDigitStr s = true) : pyStrip s = s := by
  have hall : s.data.all pyIsDigitChar = true := by
    unfold pyIsDigitStr at h
    exact (Bool.and_eq_true_iff.mp h).2
  unfold pyStrip
  rw [pyStripChars_of_digits hall]

theorem pyInt_of_digitStr {s : String} (h : pyIsDigitStr s = true) :
    pyInt s = some ((digitsVal s.data : Nat) : Int) := by
  have hall : s.data.all pyIsDigitChar = true := by
    unfold pyIsDigitStr at h
    exact (Bool.and_eq_true_iff.mp h).2
  have hne : s.data ≠ [] := by
    unfold pyIsDigitStr at h
    have := (Bool.and_eq_true_iff.mp h).1
    simpa [List.isEmpty_iff] using this
  unfold pyInt
  rw [show pyStripChars s.data = s.data from pyStripChars_of_digits hall]
  cases hd : s.data with
  | nil => exact absurd hd hne
  | cons c cs =>
    have hcdig : pyIsDigitChar c = true := by
      have := List.all_eq_true.mp hall c (by rw [hd]; simp)
      simpa using this
    have hcmem : c ∈ pyDigitChars := by
      simpa [pyIsDigitChar, List.contains, List.elem_iff] using hcdig
    have hminus : ¬ (c = '-') := by
      intro hc; subst hc; simp [pyDigitChars] at hcmem
    have hplus : ¬ (c = '+') := by
      intro hc; subst hc; simp [pyDigitChars] at hcmem
    dsimp only
    rw [if_neg hminus, if_neg hplus]
    have hsome : pyToNat (c :: cs) = some (digitsVal (c :: cs)) := by
      unfold pyToNat
      rw [if_pos (by rw [← hd]; simp [hall, List.isEmpty_iff, hne])]
    rw [hsome]
    simp [← hd]

theorem turnKeyI_of_digitStr {r : Row} (h : pyIsDigitStr r.turn = true) :
    turnKeyI r = ((turnNumber r : Nat) : Int) := by
  unfold turnKeyI turnNumber
  rw [pyInt_of_digitStr h]
  have hall : r.turn.data.all pyIsDigitChar = true := by
    unfold pyIsDigitStr at h
    exact (Bool.and_eq_true_iff.mp h).2
  have hne : ¬ r.turn.data.isEmpty = true := by
    unfold pyIsDigitStr at h
    have := (Bool.and_eq_true_iff.mp h).1
    simpa using this
  unfold pyToNat
  rw [if_pos (by simp [hall]; simpa [List.isEmpty_iff] using hne)]
  rfl

/-! ### Helper lemmas: fold maxima -/

theorem init_le_foldl_max : ∀ (l : List Nat) (a : Nat), a ≤ l.foldl Nat.max a := by
  intro l
  induction l with
  | nil => intro a; simp
  | cons x xs ih =>
    intro a
    calc a ≤ Nat.max a x := Nat.le_max_left a x
    _ ≤ xs.foldl Nat.max (Nat.max a x) := ih _

theorem mem_le_foldl_max : ∀ (l : List Nat) (a x : Nat), x ∈ l → x ≤ l.foldl Nat.max a := by
  intro l
  induction l with
  | nil => intro a x hx; simp at hx
  | cons y ys ih =>
    intro a x hx
    rcases List.mem_cons.mp hx with rfl | hx
    · calc x ≤ Nat.max a x := Nat.le_max_right a x
      _ ≤ ys.foldl Nat.max (Nat.max a x) := init_le_foldl_max _ _
    · exact ih _ x hx

/-! ### Helper lemmas: stable sorting -/

theorem orderedInsert_congr {α : Type} {r s : α → α → Prop}
    [DecidableRel r] [DecidableRel s] (a : α) :
    ∀ (l : List α), (∀ b ∈ l, (r a b ↔ s a b)) →
      List.orderedInsert r a l = List.orderedInsert s a l := by
  intro l
  induction l with
  | nil => intro _; rfl
  | cons b bs ih =>
    intro h
    by_cases hr : r a b
    · rw [List.orderedInsert, List.orderedInsert, if_pos hr,
        if_pos ((h b (by simp)).mp hr)]
    · rw [List.orderedInsert, List.orderedInsert, if_neg hr,
        if_neg (fun hs => hr ((h b (by simp)).mpr hs)),
        ih (fun c hc => h c (by simp [hc]))]

theorem insertionSort_congr {α : Type} {r s : α → α → Prop}
    [DecidableRel r] [DecidableRel s] :
    ∀ (l : List α), (∀ a ∈ l, ∀ b ∈ l, (r a b ↔ s a b)) →
      l.insertionSort r = l.insertionSort s := by
  intro l
  induction l with
  | nil => intro _; rfl
  | cons a as ih =>
    intro h
    rw [List.insertionSort, List.insertionSort,
      ih (fun x hx y hy => h x (by simp [hx]) y (by simp [hy]))]
    apply orderedInsert_congr
    intro b hb
    have hbas : b ∈ as := (List.perm_insertionSort s as).mem_iff.mp hb
    exact h a (by simp) b (by simp [hbas])

theorem sorted_insertionSort_key {α β : Type} [LinearOrder β] (k : α → β)
    [DecidableRel fun a b : α => k a ≤ k b] (l : List α) :
    List.Sorted (fun a b => k a ≤ k b) (l.insertionSort fun a b => k a ≤ k b) := by
  haveI : IsTotal α (fun a b => k a ≤ k b) := ⟨fun a b => le_total _ _⟩
  haveI : IsTrans α (fun a b => k a ≤ k b) := ⟨fun _ _ _ => le_trans⟩
  exact List.sorted_insertionSort _ _

theorem hasContent_eq {r : Row} (h : noBlankFields r) :
    hasContentStrip r = hasContentLit r := by
  obtain ⟨h1, h2⟩ := h
  have hs0 : ∀ s : String, s = "" → pyStrip s = "" := fun s hs => by rw [hs]; rfl
  apply Bool.eq_iff_iff.mpr
  unfold hasContentStrip hasContentLit
  simp only [Bool.or_eq_true, bne_iff_ne]
  constructor
  · rintro (hx | hx)
    · exact Or.inl fun hc => hx (hs0 _ hc)
    · exact Or.inr fun hc => hx (hs0 _ hc)
  · rintro (hx | hx)
    · exact Or.inl (h1 hx)
    · exact Or.inr (h2 hx)

/-! ### Helper lemmas: words and counting -/

theorem pyWordCount_empty : pyWordCount "" = 0 := rfl

/-! ### Claim theorems -/

/-- Claim C8: for every input text, `confidence_from_text text` equals
`clamp(word_count(text) / 200, 0.4, 0.95)` rounded to 2 decimal places, where
the word count splits the text on whitespace; consequently the result always
lies in `[0.4, 0.95]`, the confidence of the empty string is `0.4`, and the
function is deterministic. -/
theorem confidence_from_text_spec (text : String) :
    confidence_from_text text = specConfidence text
    ∧ 0.4 ≤ confidence_from_text text
    ∧ confidence_from_text text ≤ 0.95
    ∧ confidence_from_text "" = 0.4
    ∧ (∀ s t : String, s = t → confidence_from_text s = confidence_from_text t) := by
  have hclamp : ∀ x : ℚ, min 0.95 (max 0.4 x) = specClamp x 0.4 0.95 := by
    intro x
    unfold specClamp
    rcases le_total x (0.4 : ℚ) with h | h
    · rw [max_eq_left h, min_eq_right (by norm_num : (0.4:ℚ) ≤ 0.95),
        min_eq_left (h.trans (by norm_num)), max_eq_left h]
    rcases le_total x (0.95 : ℚ) with h2 | h2
    · rw [max_eq_right h, min_eq_right h2, min_eq_left h2, max_eq_right h]
    · rw [max_eq_right h, min_eq_left h2, min_eq_right h2,
        max_eq_right (by norm_num : (0.4:ℚ) ≤ 0.95)]
  have hmem : ∀ x : ℚ, 0.4 ≤ min 0.95 (max 0.4 x) ∧ min 0.95 (max 0.4 x) ≤ 0.95 := by
    intro x
    constructor
    · exact le_min (by norm_num) (le_max_left _ _)
    · exact min_le_left _ _
  have hempty : confidence_from_text "" = 0.4 := by
    unfold confidence_from_text
    rw [pyWordCount_empty]
    have : min (0.95 : ℚ) (max 0.4 ((0 : ℕ) / 200)) = 0.4 := by
      norm_num
    rw [this, pyRound2_fixed_04]
  refine ⟨?_, ?_, ?_, hempty, fun s t h => by rw [h]⟩
  · unfold confidence_from_text specConfidence
    rw [hclamp]
  · exact (pyRound2_bounds (hmem _).1 (hmem _).2).1
  · exact (pyRound2_bounds (hmem _).1 (hmem _).2).2

/-- Claim C9: for every query, `generate_conversation_response` called with an
empty history returns the fixed advisory text with confidence exactly `1.0`
and makes no remote call to the completion service. -/
theorem conversation_response_empty_history (resp : Option String) (query : String) :
    generate_conversation_response resp query []
      = ({ text := ADVISORY_TEXT, confidence := 1 }, 0) := rfl

/-- Claim C7: for every completion response, `detect_intent_with_llm` parses
it by case-insensitive substring match against the labels `"search"`,
`"summarize"`, `"conversation_query"` in that fixed priority order (a response
containing several labels resolves to the earliest in that order), and returns
`"search"` when no label occurs or when the completion call fails. -/
theorem detect_intent_priority (resp : Option String) :
    detect_intent_with_llm resp = specIntentOf resp := by
  cases resp with
  | none => rfl
  | some raw =>
    show (match VALID_INTENTS.find? (fun intent => strContainsSub (pyLower (pyStrip raw)) intent) with
          | some intent => intent
          | none => "search") = _
    unfold specIntentOf VALID_INTENTS
    by_cases h1 : strContainsSub (pyLower (pyStrip raw)) "search" = true <;>
      by_cases h2 : strContainsSub (pyLower (pyStrip raw)) "summarize" = true <;>
        by_cases h3 : strContainsSub (pyLower (pyStrip raw)) "conversation_query" = true <;>
          simp [List.find?, h1, h2, h3]

/-- Reduction of `plan_execution_stages` on a parsed JSON array: the filtered
list when it is non-empty, the per-intent fallback otherwise. -/
theorem plan_stages_arr_eq (intent : String) (xs : List JValue) :
    plan_execution_stages intent (some (some (.jarr xs)))
      = (if specValidFilter xs = [] then specFallbackStages intent else specValidFilter xs) := by
  unfold plan_execution_stages pyIterElems
  have hf : ∀ s : JValue,
      (match s with
       | JValue.jstr t => if VALID_STAGES.contains t = true then some t else none
       | _ => none)
      = (match s with
         | JValue.jstr t => if t ∈ VALID_STAGES then some t else none
         | _ => none) := by
    intro s
    cases s <;> simp [List.contains, List.elem_iff]
  simp only [hf]
  change (if (specValidFilter xs).isEmpty = true then planFallback intent
          else specValidFilter xs) = _
  by_cases h : specValidFilter xs = []
  · simp [h, planFallback, specFallbackStages]
  · simp [h, List.isEmpty_iff]

/-- Claim C6: for every intent, `plan_execution_stages` falls back to
`["search"]` for intent `"search"`, `["summarize"]` for intent `"summarize"`
and `["search"]` for any other intent whenever the planner call fails, the raw
response is unparsable, or the parsed list filtered to valid stage names is
empty; otherwise it returns exactly that filtered list, order preserved. -/
theorem plan_execution_stages_spec (intent : String) :
    plan_execution_stages intent none = specFallbackStages intent
    ∧ plan_execution_stages intent (some none) = specFallbackStages intent
    ∧ ∀ xs : List JValue,
        (specValidFilter xs = [] →
          plan_execution_stages intent (some (some (.jarr xs))) = specFallbackStages intent)
        ∧ (specValidFilter xs ≠ [] →
          plan_execution_stages intent (some (some (.jarr xs))) = specValidFilter xs) := by
  refine ⟨rfl, rfl, fun xs => ⟨fun h => ?_, fun h => ?_⟩⟩
  · rw [plan_stages_arr_eq, if_pos h]
  · rw [plan_stages_arr_eq, if_neg h]

/-- Claim C6 witness: the fallback at a failed call with intent
`"summarize"`, and the filtered pass-through on a concrete parsed list. -/
theorem plan_execution_stages_spec_witness :
    plan_execution_stages "summarize" none = ["summarize"]
    ∧ plan_execution_stages "summarize"
        (some (some (.jarr [.jstr "search", .jstr "bogus", .jnum 4]))) = ["search"] := by
  refine ⟨(plan_execution_stages_spec "summarize").1, ?_⟩
  exact ((plan_execution_stages_spec "summarize").2.2
    [.jstr "search", .jstr "bogus", .jnum 4]).2 (by decide)

/-- Claim C2: for every turn whose `search_results` is already non-empty,
`execute_search` returns the turn unchanged and issues no remote call; calling
it twice in a row yields the same turn as calling it once; and a non-empty
`search_results` is never overwritten. -/
theorem execute_search_idempotent (search : String → ToolResp) (query : String) (row : Row) :
    (row.search_results ≠ "" → execute_search search query row = (row, []))
    ∧ (execute_search search query (execute_search search query row).1).1
        = (execute_search search query row).1
    ∧ (row.search_results ≠ "" →
        ((execute_search search query row).1).search_results = row.search_results) := by
  refine ⟨fun h => by simp [execute_search, h], ?_, fun h => by simp [execute_search, h]⟩
  by_cases h : row.search_results = ""
  · simp only [execute_search, h]
    by_cases h2 : (search query).text = "" <;> simp [h, h2]
  · simp [execute_search, h]

/-- Claim C2 witness: a turn with non-empty search results is returned
unchanged with an empty call trace, and the double call equals the single
call on a fresh turn. -/
theorem execute_search_idempotent_witness :
    execute_search echoSearch "q" (mkRow "a" "1" "S" "") = (mkRow "a" "1" "S" "", [])
    ∧ (execute_search echoSearch "q"
        (execute_search echoSearch "q" (mkRow "a" "1" "" "")).1).1
        = (execute_search echoSearch "q" (mkRow "a" "1" "" "")).1 :=
  ⟨(execute_search_idempotent echoSearch "q" (mkRow "a" "1" "S" "")).1 (by decide),
   (execute_search_idempotent echoSearch "q" (mkRow "a" "1" "" "")).2.1⟩

/-- The code-side filter agrees with the literal non-empty filter on stores
without whitespace-only content fields, and the code-side sort (by the
`int()` key) agrees with the spec-side sort (by ascending numeric turn) on
digit-string turns. -/
theorem specSelected_eq (store : List Row)
    (hblank : ∀ r ∈ store, noBlankFields r)
    (hdig : ∀ r ∈ store, hasContentLit r = true → pyIsDigitStr r.turn = true) :
    (store.filter hasContentStrip).insertionSort (fun a b => turnKeyI a ≤ turnKeyI b)
      = specSelected store := by
  have hfe : store.filter hasContentStrip = store.filter hasContentLit :=
    List.filter_congr (fun r hr => hasContent_eq (hblank r hr))
  rw [hfe]
  unfold specSelected
  apply insertionSort_congr
  intro a ha b hb
  have hda := hdig a (List.mem_filter.mp ha).1 (List.mem_filter.mp ha).2
  have hdb := hdig b (List.mem_filter.mp hb).1 (List.mem_filter.mp hb).2
  rw [turnKeyI_of_digitStr hda, turnKeyI_of_digitStr hdb]
  constructor <;> intro hx <;> exact_mod_cast hx

/-- Reduction of `execute_summarize` in the executing case: empty in-flight
summary, non-empty content selection, all selected turns parse. -/
theorem execute_summarize_run (summ : List String → ToolResp) (store : List Row) (row : Row)
    (hrow : row.summary = "")
    (hne : (store.filter hasContentStrip).isEmpty = false)
    (hall : (store.filter hasContentStrip).all (fun r => (pyInt r.turn).isSome) = true) :
    execute_summarize summ store row =
      (let sorted_rows := (store.filter hasContentStrip).insertionSort
          fun a b => turnKeyI a ≤ turnKeyI b
       let last_3 := sorted_rows.drop (sorted_rows.length - 3)
       let messages := last_3.map fun r => SummMsg.mk r.query (truncate200 (pickContent r)) r.turn
       let combined_text := String.intercalate "\n\n"
         (((last_3.map pickContent).enum).map fun p => "Response " ++ natStr (p.1 + 1) ++ ": " ++ p.2)
       let resp := summ [combined_text]
       .ok ({ row with summary := resp.text, summary_confidence := floatStr resp.confidence },
            [[combined_text]], some messages)) := by
  unfold execute_summarize
  rw [if_neg (by simp [hrow])]
  simp only [hne, hall]
  simp

/-- Claim C1: on a loaded store (without whitespace-only fields, with numeric
turn fields on its content rows), `execute_summarize` on a summary-less
in-flight turn selects the turns whose `search_results` or `summary` is
non-empty sorted by ascending turn number, takes the last 3 preserving that
order, labels the i-th selected text `Response i: <text>`, joins them into one
combined document and calls the condensation client with exactly that single
document; the selection is sorted and consists exactly of the content rows. -/
theorem execute_summarize_selection (summ : List String → ToolResp) (store : List Row) (row : Row)
    (hrow : row.summary = "")
    (hblank : ∀ r ∈ store, noBlankFields r)
    (hdig : ∀ r ∈ store, hasContentLit r = true → pyIsDigitStr r.turn = true)
    (hne : store.filter hasContentLit ≠ []) :
    execute_summarize summ store row
      = .ok ({ row with summary := (summ [specCombined store]).text,
                        summary_confidence := floatStr (summ [specCombined store]).confidence },
             [[specCombined store]],
             some ((lastN 3 (specSelected store)).map
               fun r => SummMsg.mk r.query (truncate200 (pickContent r)) r.turn))
      ∧ List.Sorted (fun a b => turnNumber a ≤ turnNumber b) (specSelected store)
      ∧ (∀ r ∈ specSelected store, r ∈ store ∧ hasContentLit r = true)
      ∧ (∀ r ∈ store, hasContentLit r = true → r ∈ specSelected store) := by
  have hfe : store.filter hasContentStrip = store.filter hasContentLit :=
    List.filter_congr (fun r hr => hasContent_eq (hblank r hr))
  have hperm := List.perm_insertionSort
    (fun a b : Row => turnNumber a ≤ turnNumber b) (store.filter hasContentLit)
  refine ⟨?_, ?_, ?_, ?_⟩
  · rw [execute_summarize_run summ store row hrow ?hne2 ?hall]
    case hne2 =>
      rw [hfe]
      simp [List.isEmpty_iff, hne]
    case hall =>
      rw [hfe]
      rw [List.all_eq_true]
      intro r hr
      rw [pyInt_of_digitStr (hdig r (List.mem_filter.mp hr).1 (List.mem_filter.mp hr).2)]
      rfl
    rw [specSelected_eq store hblank hdig]
    rfl
  · unfold specSelected
    exact sorted_insertionSort_key turnNumber _
  · intro r hr
    have : r ∈ store.filter hasContentLit := hperm.mem_iff.mp hr
    exact ⟨(List.mem_filter.mp this).1, (List.mem_filter.mp this).2⟩
  · intro r hr hc
    exact hperm.mem_iff.mpr (List.mem_filter.mpr ⟨hr, hc⟩)

/-- Claim C1 witness: on the five-turn store where only turns 2, 3 and 5 have
content, the selection is exactly `[2, 3, 5]` in that order and the
condensation client receives the single labeled combined document. -/
theorem execute_summarize_selection_witness :
    (lastN 3 (specSelected store5)).map (fun r => r.turn) = ["2", "3", "5"]
    ∧ specCombined store5 = "Response 1: B\n\nResponse 2: C\n\nResponse 3: E"
    ∧ execute_summarize joinSummarize store5 (mkRow "q" "6" "" "")
      = .ok ({ (mkRow "q" "6" "" "") with
                 summary := (joinSummarize [specCombined store5]).text,
                 summary_confidence := floatStr (joinSummarize [specCombined store5]).confidence },
             [[specCombined store5]],
             some ((lastN 3 (specSelected store5)).map
               fun r => SummMsg.mk r.query (truncate200 (pickContent r)) r.turn)) :=
  ⟨by decide, by decide,
   (execute_summarize_selection joinSummarize store5 (mkRow "q" "6" "" "")
     (by decide) (by decide) (by decide) (by decide)).1⟩


/-- The search executor never touches the summary, turn or query fields. -/
theorem execute_search_fields (search : String → ToolResp) (q : String) (row : Row) :
    ((execute_search search q row).1).summary = row.summary
    ∧ ((execute_search search q row).1).turn = row.turn
    ∧ ((execute_search search q row).1).query = row.query := by
  unfold execute_search
  split <;> simp

/-- When the store has no content rows, the stage loop fails with the
no-prior-content error as soon as it reaches a planned summarize stage. -/
theorem runStages_noPrior (o : Oracles) (query : String) (store : List Row)
    (hemp : (store.filter hasContentStrip).isEmpty = true) :
    ∀ (stages : List String) (st : StageState), "summarize" ∈ stages → st.row.summary = "" →
      ∃ r', runStages o query store stages st = .error (.noPriorContent r') := by
  intro stages
  induction stages with
  | nil =>
    intro st hmem
    simp at hmem
  | cons stage rest ih =>
    intro st hmem hsum
    by_cases hz : stage = "summarize"
    · subst hz
      have hsz : execute_summarize o.summarize store st.row = .error (.noPriorContent st.row) := by
        unfold execute_summarize
        rw [if_neg (by simp [hsum])]
        simp only [hemp]
        simp
      refine ⟨st.row, ?_⟩
      unfold runStages runStage
      rw [if_neg (by decide), if_pos rfl, hsz]
    · have hmem' : "summarize" ∈ rest := by
        rcases List.mem_cons.mp hmem with h | h
        · exact absurd h.symm hz
        · exact h
      by_cases hs : stage = "search"
      · subst hs
        unfold runStages runStage
        rw [if_pos rfl]
        exact ih _ hmem' (by
          have := (execute_search_fields o.search query st.row).1
          simpa [this] using hsum)
      · unfold runStages runStage
        rw [if_neg hs, if_neg hz]
        exact ih _ hmem' hsum

/-- Claim C5: on a summary-less in-flight turn over a store without
whitespace-only fields, `execute_summarize` fails with the no-prior-content
error if and only if no stored turn has non-empty `search_results` or
`summary`; the error carries the in-flight turn unchanged; and when the store
is content-free, the turn is fresh and a summarize stage is planned, the error
propagates out of `orchestrate` unswallowed. -/
theorem no_prior_content_spec (summ : List String → ToolResp) (store : List Row) (row : Row)
    (hrow : row.summary = "")
    (hblank : ∀ r ∈ store, noBlankFields r) :
    ((∃ r', execute_summarize summ store row = .error (.noPriorContent r'))
        ↔ store.filter hasContentLit = [])
    ∧ (∀ r', execute_summarize summ store row = .error (.noPriorContent r') → r' = row)
    ∧ ∀ (o : Oracles) (query : String),
        store.filter hasContentLit = [] →
        (∀ r ∈ store, r.query ≠ query) →
        "summarize" ∈ plan_execution_stages "summarize" o.planResp →
        ∃ r', orchestrate o query (some "summarize") store = .error (.noPriorContent r') := by
  have hfe : store.filter hasContentStrip = store.filter hasContentLit :=
    List.filter_congr (fun r hr => hasContent_eq (hblank r hr))
  have herrform : ∀ r', execute_summarize summ store row = .error (.noPriorContent r') →
      store.filter hasContentLit = [] ∧ r' = row := by
    intro r' herr
    unfold execute_summarize at herr
    rw [if_neg (by simp [hrow])] at herr
    by_cases hemp : (store.filter hasContentStrip).isEmpty = true
    · simp only [hemp] at herr
      rw [if_pos trivial] at herr
      refine ⟨by rw [← hfe]; exact List.isEmpty_iff.mp hemp, ?_⟩
      injection herr with h
      cases h
      rfl
    · have hemp2 : (store.filter hasContentStrip).isEmpty = false := by
        simpa using hemp
      simp only [hemp2] at herr
      rw [if_neg (by simp)] at herr
      by_cases hall : (store.filter hasContentStrip).all (fun r => (pyInt r.turn).isSome) = true
      · rw [if_pos hall] at herr
        simp at herr
      · rw [if_neg hall] at herr
        injection herr with h
        exact absurd h (by simp)
  refine ⟨⟨fun ⟨r', herr⟩ => (herrform r' herr).1, fun hnil => ?_⟩,
    fun r' herr => (herrform r' herr).2, ?_⟩
  · have hemp : (store.filter hasContentStrip).isEmpty = true := by
      rw [hfe, hnil]
      rfl
    refine ⟨row, ?_⟩
    unfold execute_summarize
    rw [if_neg (by simp [hrow])]
    simp only [hemp]
    simp
  · intro o query hnil hq hmem
    have hemp : (store.filter hasContentStrip).isEmpty = true := by
      rw [hfe, hnil]
      rfl
    have hpred : ∀ r ∈ store, ¬ hasContentLit r = true := by
      intro r hr
      exact (List.filter_eq_nil_iff.mp hnil) r hr
    have hctx : store.filter (fun r => pyStrip r.search_results != "") = [] := by
      rw [List.filter_eq_nil_iff]
      intro r hr hcontra
      have hsr : r.search_results ≠ "" := by
        intro h0
        rw [h0] at hcontra
        exact absurd hcontra (by decide)
      exact hpred r hr (by simp [hasContentLit, bne_iff_ne, hsr])
    have hmatch : store.filter (fun r => r.query = query) = [] := by
      rw [List.filter_eq_nil_iff]
      intro r hr
      simp [hq r hr]
    have hg : get_or_create_row query (some "summarize") store
        = .ok ({ emptyRow with query := query, turn := natStr (newTurn store) }, store) := by
      unfold get_or_create_row
      rw [if_pos rfl]
      simp only [hctx]
      rw [if_pos (show ([] : List Row).isEmpty = true from rfl)]
      unfold getOrCreateTail
      simp only [hmatch]
      rw [if_pos (show ([] : List Row).isEmpty = true from rfl)]
    obtain ⟨r', hr'⟩ := runStages_noPrior o query store hemp
      (plan_execution_stages "summarize" o.planResp)
      { row := { emptyRow with query := query, turn := natStr (newTurn store) },
        executed := [], searchCalls := [], summCalls := [], msgsKey := none } hmem rfl
    refine ⟨r', ?_⟩
    unfold orchestrate
    dsimp only
    rw [if_neg (by decide), hg]
    dsimp only
    rw [hr']

/-- Claim C5 witness: on a one-row store without content, the no-prior-content
error is raised by the executor and propagates out of `orchestrate`. -/
theorem no_prior_content_spec_witness :
    (∃ r', execute_summarize joinSummarize [mkRow "qa" "1" "" ""] (mkRow "x" "2" "" "")
        = .error (.noPriorContent r'))
    ∧ ∃ r', orchestrate plainOracles "x" (some "summarize") [mkRow "qa" "1" "" ""]
        = .error (.noPriorContent r') :=
  ⟨((no_prior_content_spec joinSummarize [mkRow "qa" "1" "" ""] (mkRow "x" "2" "" "")
      (by decide) (by decide)).1).mpr (by decide),
   (no_prior_content_spec joinSummarize [mkRow "qa" "1" "" ""] (mkRow "x" "2" "" "")
      (by decide) (by decide)).2.2 plainOracles "x" (by decide) (by decide) (by decide)⟩

/-- The source expression for the next turn number equals the spec formula:
one plus the maximum over the digit-string turn fields, `0` if none. -/
theorem newTurn_eq_spec (rows : List Row) : newTurn rows = specNewTurnNumber rows := by
  unfold newTurn specNewTurnNumber
  congr 2
  induction rows with
  | nil => rfl
  | cons r rs ih =>
    simp only [List.filter_cons, List.filterMap_cons]
    by_cases h : pyIsDigitStr (pyStrip r.turn) = true
    · have h2 : (!(pyStripChars r.turn.data).isEmpty
          && (pyStripChars r.turn.data).all pyIsDigitChar) = true := by
        have h3 := h
        unfold pyIsDigitStr at h3
        exact h3
      have hsome : pyToNat (pyStripChars r.turn.data)
          = some (digitsVal (pyStripChars r.turn.data)) := by
        unfold pyToNat
        rw [if_pos h2]
      rw [if_pos h, List.map_cons,
        show pyToNat (pyStrip r.turn).data
          = some (digitsVal (pyStripChars r.turn.data)) from hsome]
      simp only [hsome, Option.getD_some, ih]
    · have h2 : ¬ (!(pyStripChars r.turn.data).isEmpty
          && (pyStripChars r.turn.data).all pyIsDigitChar) = true := by
        intro hc
        exact h (by unfold pyIsDigitStr; exact hc)
      have hnone : pyToNat (pyStripChars r.turn.data) = none := by
        unfold pyToNat
        rw [if_neg h2]
      rw [if_neg h,
        show pyToNat (pyStrip r.turn).data = none from hnone]
      exact ih

/-- Claim C3: a newly created turn (both in `get_or_create_row` when no reuse
applies and in the conversation-query path of `orchestrate`) gets turn number
one plus the maximum existing numeric turn number, ignoring non-digit turn
fields, with an empty store yielding maximum `0`. -/
theorem turn_numbering (query : String) (intent : Option String) (rows : List Row)
    (hq : ∀ r ∈ rows, r.query ≠ query)
    (hctx : intent ≠ some "summarize"
      ∨ rows.filter (fun r => pyStrip r.search_results != "") = []) :
    get_or_create_row query intent rows
      = .ok ({ emptyRow with query := query, turn := natStr (specNewTurnNumber rows) }, rows)
    ∧ newTurn rows = specNewTurnNumber rows
    ∧ ∀ o : Oracles, ∃ res, orchestrate o query (some "conversation_query") rows = .ok res
        ∧ res.row.turn = natStr (specNewTurnNumber rows)
        ∧ res.saved = rows ++ [res.row] := by
  have hnt := newTurn_eq_spec rows
  have hmatch : rows.filter (fun r => r.query = query) = [] := by
    rw [List.filter_eq_nil_iff]
    intro r hr
    simp [hq r hr]
  have htail : getOrCreateTail query rows
      = .ok ({ emptyRow with query := query, turn := natStr (specNewTurnNumber rows) }, rows) := by
    unfold getOrCreateTail
    simp only [hmatch]
    rw [if_pos (show ([] : List Row).isEmpty = true from rfl), hnt]
  refine ⟨?_, hnt, ?_⟩
  · unfold get_or_create_row
    by_cases hs : intent = some "summarize"
    · rw [if_pos hs]
      rcases hctx with hc | hc
      · exact absurd hs hc
      · simp only [hc]
        rw [if_pos (show ([] : List Row).isEmpty = true from rfl)]
        exact htail
    · rw [if_neg hs]
      exact htail
  · intro o
    refine ⟨_, rfl, ?_, rfl⟩
    show natStr (newTurn rows) = natStr (specNewTurnNumber rows)
    rw [hnt]

/-- Claim C3 witness: on the five-turn store, a fresh turn gets number 6 in
both creation paths. -/
theorem turn_numbering_witness :
    get_or_create_row "zz" (some "search") store5
      = .ok ({ emptyRow with query := "zz", turn := natStr (specNewTurnNumber store5) }, store5)
    ∧ ∃ res, orchestrate plainOracles "zz" (some "conversation_query") store5 = .ok res
        ∧ res.row.turn = natStr (specNewTurnNumber store5)
        ∧ res.saved = store5 ++ [res.row] :=
  ⟨(turn_numbering "zz" (some "search") store5 (by decide) (Or.inl (by decide))).1,
   (turn_numbering "zz" (some "search") store5 (by decide) (Or.inl (by decide))).2.2 plainOracles⟩


/-- A fold that keeps either the accumulator or the current element stays in
the list. -/
theorem foldl_choice_mem :
    ∀ (xs : List Row) (x : Row),
      xs.foldl (fun b a => if turnKeyI b < turnKeyI a then a else b) x ∈ x :: xs := by
  intro xs
  induction xs with
  | nil => intro x; simp
  | cons a as ih =>
    intro x
    rw [List.foldl_cons]
    have := ih (if turnKeyI x < turnKeyI a then a else x)
    rcases List.mem_cons.mp this with h | h
    · rw [h]
      split <;> simp
    · simp [h]

/-- Python `max` over a non-empty list returns one of its elements. -/
theorem pyMaxByTurn_mem {l : List Row} (h : l ≠ []) : pyMaxByTurn l ∈ l := by
  cases l with
  | nil => exact absurd rfl h
  | cons r rest =>
    unfold pyMaxByTurn
    exact foldl_choice_mem rest r

/-- The fall-through path of `get_or_create_row` returns the store unchanged
and a row whose turn is an existing turn string or the fresh `newTurn`. -/
theorem getOrCreateTail_ok (query : String) (rows : List Row) :
    ∀ r0 rows1, getOrCreateTail query rows = .ok (r0, rows1) →
      rows1 = rows ∧ (r0.turn ∈ rows.map (fun r => r.turn) ∨ r0.turn = natStr (newTurn rows)) := by
  intro r0 rows1 h
  unfold getOrCreateTail at h
  by_cases hm : (rows.filter fun r => r.query = query).isEmpty = true
  · rw [if_pos hm] at h
    injection h with h2
    injection h2 with h3 h4
    subst h3
    exact ⟨h4.symm, Or.inr rfl⟩
  · rw [if_neg hm] at h
    by_cases hall : ((rows.filter fun r => r.query = query).all
        fun r => (pyInt r.turn).isSome) = true
    · rw [if_pos hall] at h
      injection h with h2
      injection h2 with h3 h4
      subst h3
      refine ⟨h4.symm, Or.inl ?_⟩
      have hne : (rows.filter fun r => r.query = query) ≠ [] := by
        intro hc
        rw [hc] at hm
        exact hm rfl
      have := pyMaxByTurn_mem hne
      exact List.mem_map.mpr ⟨_, (List.mem_filter.mp this).1, rfl⟩
    · rw [if_neg hall] at h
      cases h

/-- Any successful `get_or_create_row` returns the store unchanged and a row
whose turn is an existing turn string or the fresh `newTurn` string. -/
theorem get_or_create_row_ok (query : String) (intent : Option String) (rows : List Row) :
    ∀ r0 rows1, get_or_create_row query intent rows = .ok (r0, rows1) →
      rows1 = rows ∧ (r0.turn ∈ rows.map (fun r => r.turn) ∨ r0.turn = natStr (newTurn rows)) := by
  intro r0 rows1 h
  unfold get_or_create_row at h
  by_cases hs : intent = some "summarize"
  · rw [if_pos hs] at h
    by_cases hctx : (rows.filter fun r => pyStrip r.search_results != "").isEmpty = true
    · rw [if_pos hctx] at h
      exact getOrCreateTail_ok query rows r0 rows1 h
    · rw [if_neg hctx] at h
      by_cases hall : ((rows.filter fun r => pyStrip r.search_results != "").all
          fun r => (pyInt r.turn).isSome) = true
      · rw [if_pos hall] at h
        cases heq : ((rows.filter fun r => pyStrip r.search_results != "").insertionSort
            fun a b => turnKeyI b ≤ turnKeyI a).take 3 with
        | nil =>
          rw [heq] at h
          cases h
        | cons row0 t =>
          rw [heq] at h
          injection h with h2
          injection h2 with h3 h4
          subst h3
          refine ⟨h4.symm, Or.inl ?_⟩
          have hmem0 : row0 ∈ ((rows.filter fun r => pyStrip r.search_results != "").insertionSort
              fun a b => turnKeyI b ≤ turnKeyI a).take 3 := by
            rw [heq]
            simp
          have hmem1 := List.mem_of_mem_take hmem0
          have hmem2 := (List.perm_insertionSort
            (fun a b => turnKeyI b ≤ turnKeyI a)
            (rows.filter fun r => pyStrip r.search_results != "")).mem_iff.mp hmem1
          exact List.mem_map.mpr ⟨row0, (List.mem_filter.mp hmem2).1, rfl⟩
      · rw [if_neg hall] at h
        cases h
  · rw [if_neg hs] at h
    exact getOrCreateTail_ok query rows r0 rows1 h

/-- A successful summarize stage never changes the turn or query fields. -/
theorem execute_summarize_ok_fields (summ : List String → ToolResp) (store : List Row)
    (row : Row) :
    ∀ row' c m, execute_summarize summ store row = .ok (row', c, m) →
      row'.turn = row.turn ∧ row'.query = row.query := by
  intro row' c m h
  unfold execute_summarize at h
  by_cases hs : row.summary ≠ ""
  · rw [if_pos hs] at h
    injection h with h2
    injection h2 with h3 h4
    subst h3
    exact ⟨rfl, rfl⟩
  · rw [if_neg hs] at h
    by_cases hemp : (store.filter hasContentStrip).isEmpty = true
    · simp only [hemp] at h
      rw [if_pos trivial] at h
      cases h
    · have hemp2 : (store.filter hasContentStrip).isEmpty = false := by simpa using hemp
      simp only [hemp2] at h
      rw [if_neg (by simp)] at h
      by_cases hall : ((store.filter hasContentStrip).all
          fun r => (pyInt r.turn).isSome) = true
      · rw [if_pos hall] at h
        injection h with h2
        injection h2 with h3 h4
        subst h3
        exact ⟨rfl, rfl⟩
      · rw [if_neg hall] at h
        cases h

/-- The stage loop never changes the in-flight turn number or query. -/
theorem runStages_preserves (o : Oracles) (query : String) (store : List Row) :
    ∀ (stages : List String) (st st' : StageState),
      runStages o query store stages st = .ok st' →
      st'.row.turn = st.row.turn ∧ st'.row.query = st.row.query := by
  intro stages
  induction stages with
  | nil =>
    intro st st' h
    unfold runStages at h
    injection h with h2
    subst h2
    exact ⟨rfl, rfl⟩
  | cons stage rest ih =>
    intro st st' h
    unfold runStages at h
    cases hstep : runStage o query store st stage with
    | error e =>
      rw [hstep] at h
      cases h
    | ok st1 =>
      rw [hstep] at h
      have hrec := ih st1 st' h
      have hfields : st1.row.turn = st.row.turn ∧ st1.row.query = st.row.query := by
        unfold runStage at hstep
        by_cases hs : stage = "search"
        · rw [if_pos hs] at hstep
          injection hstep with h2
          subst h2
          exact ⟨(execute_search_fields o.search query st.row).2.1,
            (execute_search_fields o.search query st.row).2.2⟩
        · rw [if_neg hs] at hstep
          by_cases hz : stage = "summarize"
          · rw [if_pos hz] at hstep
            cases hsz : execute_summarize o.summarize store st.row with
            | error e =>
              rw [hsz] at hstep
              cases hstep
            | ok out =>
              obtain ⟨row1, c1, m1⟩ := out
              rw [hsz] at hstep
              injection hstep with h2
              subst h2
              exact execute_summarize_ok_fields o.summarize store st.row row1 c1 m1 hsz
          · rw [if_neg hz] at hstep
            injection hstep with h2
            subst h2
            exact ⟨rfl, rfl⟩
      exact ⟨hrec.1.trans hfields.1, hrec.2.trans hfields.2⟩

/-- With a non-empty all-numeric content selection, the summarize executor
always succeeds. -/
theorem execute_summarize_never_errs (summ : List String → ToolResp) (store : List Row)
    (hne : (store.filter hasContentStrip).isEmpty = false)
    (hall : (store.filter hasContentStrip).all (fun r => (pyInt r.turn).isSome) = true) :
    ∀ row, ∃ out, execute_summarize summ store row = .ok out := by
  intro row
  by_cases hs : row.summary = ""
  · exact ⟨_, execute_summarize_run summ store row hs hne hall⟩
  · refine ⟨(row, [], none), ?_⟩
    unfold execute_summarize
    rw [if_pos hs]

/-- With a non-empty all-numeric content selection, the stage loop always
succeeds, whatever stages were planned. -/
theorem runStages_ok (o : Oracles) (query : String) (store : List Row)
    (hne : (store.filter hasContentStrip).isEmpty = false)
    (hall : (store.filter hasContentStrip).all (fun r => (pyInt r.turn).isSome) = true) :
    ∀ (stages : List String) (st : StageState),
      ∃ st', runStages o query store stages st = .ok st' := by
  intro stages
  induction stages with
  | nil =>
    intro st
    exact ⟨st, rfl⟩
  | cons stage rest ih =>
    intro st
    by_cases hs : stage = "search"
    · obtain ⟨st', hst'⟩ := ih
        ⟨(execute_search o.search query st.row).1, st.executed ++ ["search"],
          st.searchCalls ++ (execute_search o.search query st.row).2, st.summCalls, st.msgsKey⟩
      refine ⟨st', ?_⟩
      unfold runStages runStage
      rw [if_pos hs]
      exact hst'
    · by_cases hz : stage = "summarize"
      · obtain ⟨out, hout⟩ := execute_summarize_never_errs o.summarize store hne hall st.row
        obtain ⟨row1, c1, m1⟩ := out
        cases m1 with
        | some m =>
          obtain ⟨st', hst'⟩ := ih
            ⟨row1, st.executed ++ ["summary"], st.searchCalls, st.summCalls ++ c1, some m⟩
          refine ⟨st', ?_⟩
          unfold runStages runStage
          rw [if_neg hs, if_pos hz, hout]
          exact hst'
        | none =>
          obtain ⟨st', hst'⟩ := ih
            ⟨row1, st.executed ++ ["summary"], st.searchCalls, st.summCalls ++ c1, st.msgsKey⟩
          refine ⟨st', ?_⟩
          unfold runStages runStage
          rw [if_neg hs, if_pos hz, hout]
          exact hst'
      · obtain ⟨st', hst'⟩ := ih st
        refine ⟨st', ?_⟩
        unfold runStages runStage
        rw [if_neg hs, if_neg hz]
        exact hst'

/-- Merging a row whose turn string already occurs replaces in place, leaving
the sequence of turn strings unchanged. -/
theorem merge_row_map_turn_of_mem :
    ∀ (rows : List Row) (row : Row), row.turn ∈ rows.map (fun r => r.turn) →
      (merge_row rows row).map (fun r => r.turn) = rows.map (fun r => r.turn) := by
  intro rows
  induction rows with
  | nil =>
    intro row hmem
    simp at hmem
  | cons r rest ih =>
    intro row hmem
    unfold merge_row
    by_cases h : r.turn = row.turn
    · rw [if_pos h]
      simp [h]
    · rw [if_neg h]
      have hmem2 : row.turn ∈ rest.map (fun r => r.turn) := by
        rcases List.mem_map.mp hmem with ⟨x, hx, hxe⟩
        rcases List.mem_cons.mp hx with rfl | hx2
        · exact absurd hxe h
        · exact List.mem_map.mpr ⟨x, hx2, hxe⟩
      simp [ih row hmem2]

/-- Merging a row with a fresh turn string appends it at the end. -/
theorem merge_row_of_not_mem :
    ∀ (rows : List Row) (row : Row), row.turn ∉ rows.map (fun r => r.turn) →
      merge_row rows row = rows ++ [row] := by
  intro rows
  induction rows with
  | nil => intro row _; rfl
  | cons r rest ih =>
    intro row hmem
    unfold merge_row
    rw [if_neg (fun hc => hmem (by simp [hc]))]
    rw [ih row (fun hc => hmem (by simp [List.mem_map] at hc ⊢; exact Or.inr hc))]
    rfl

/-- After a replace-in-place merge over distinct turn strings, the only row
carrying the merged turn string is the merged row itself. -/
theorem merge_row_unique :
    ∀ (rows : List Row) (row : Row), (rows.map (fun r => r.turn)).Nodup →
      ∀ r' ∈ merge_row rows row, r'.turn = row.turn → r' = row := by
  intro rows
  induction rows with
  | nil =>
    intro row _ r' hr' ht
    rcases List.mem_singleton.mp hr' with rfl
    rfl
  | cons r rest ih =>
    intro row hnodup r' hr' ht
    unfold merge_row at hr'
    by_cases h : r.turn = row.turn
    · rw [if_pos h] at hr'
      rcases List.mem_cons.mp hr' with rfl | hr2
      · rfl
      · exfalso
        have : r.turn ∉ rest.map (fun x => x.turn) := (List.nodup_cons.mp hnodup).1
        exact this (List.mem_map.mpr ⟨r', hr2, (ht.trans h.symm)⟩)
    · rw [if_neg h] at hr'
      rcases List.mem_cons.mp hr' with rfl | hr2
      · exact absurd ht h
      · exact ih row (List.nodup_cons.mp hnodup).2 r' hr2 ht

/-- Turn numbers factor through turn strings. -/
theorem map_turnNumber_factor (l : List Row) :
    l.map turnNumber = (l.map (fun r => r.turn)).map (fun t => (pyToNat t.data).getD 0) := by
  rw [List.map_map]
  rfl

/-- Every stored digit-turn row is numbered strictly below `newTurn`. -/
theorem turnNumber_lt_newTurn {rows : List Row} {r : Row}
    (hdig : pyIsDigitStr r.turn = true) (hr : r ∈ rows) :
    turnNumber r < newTurn rows := by
  unfold newTurn
  have hall : r.turn.data.all pyIsDigitChar = true := by
    unfold pyIsDigitStr at hdig
    exact (Bool.and_eq_true_iff.mp hdig).2
  have hmem : r ∈ rows.filter (fun x => pyIsDigitStr (pyStrip x.turn)) :=
    List.mem_filter.mpr ⟨hr, by rw [pyStrip_of_digitStr hdig]; exact hdig⟩
  have hval : (pyToNat (pyStripChars r.turn.data)).getD 0 = turnNumber r := by
    rw [pyStripChars_of_digits hall]
    rfl
  have hle := mem_le_foldl_max
    ((rows.filter (fun x => pyIsDigitStr (pyStrip x.turn))).map
      (fun x => (pyToNat (pyStripChars x.turn.data)).getD 0)) 0 (turnNumber r)
    (List.mem_map.mpr ⟨r, hmem, hval⟩)
  omega


/-- Claim C4: for every store of digit-turn rows with pairwise distinct turn
numbers, whenever `orchestrate` succeeds (any intent, any oracles), the store
it saves - the merge of its resulting turn, replacing in place on a turn
match, else appending - still has pairwise distinct turn numbers. -/
theorem turn_uniqueness_after_merge (o : Oracles) (query : String) (intentArg : Option String)
    (rows : List Row)
    (hdig : ∀ r ∈ rows, pyIsDigitStr r.turn = true)
    (hnodup : (rows.map turnNumber).Nodup) :
    ∀ res, orchestrate o query intentArg rows = .ok res → (res.saved.map turnNumber).Nodup := by
  have hfreshmem : natStr (newTurn rows) ∉ rows.map (fun r => r.turn) := by
    intro hc
    rcases List.mem_map.mp hc with ⟨r, hr, hre⟩
    have h2 := turnNumber_lt_newTurn (hdig r hr) hr
    rw [turnNumber_of_natStr hre] at h2
    omega
  have happend : ∀ row : Row, row.turn = natStr (newTurn rows) →
      ((rows ++ [row]).map turnNumber).Nodup := by
    intro row hrow
    rw [List.map_append, List.nodup_append]
    refine ⟨hnodup, by simp, ?_⟩
    intro x hx
    simp only [List.map_cons, List.map_nil, List.mem_singleton]
    intro hxe
    rcases List.mem_map.mp hx with ⟨r, hr, hre⟩
    have h2 := turnNumber_lt_newTurn (hdig r hr) hr
    rw [hre, hxe, turnNumber_of_natStr hrow] at h2
    omega
  intro res h
  unfold orchestrate at h
  dsimp only at h
  generalize hI : (match intentArg with
    | some i => i
    | none => detect_intent_with_llm o.intentResp) = I at h
  split at h
  · injection h with h2
    subst h2
    exact happend _ rfl
  · cases hg : get_or_create_row query (some I) rows with
    | error e =>
      rw [hg] at h
      simp at h
    | ok pair =>
      obtain ⟨r0, rows1⟩ := pair
      obtain ⟨hrows1, hturn⟩ := get_or_create_row_ok query _ rows r0 rows1 hg
      subst hrows1
      rw [hg] at h
      dsimp only at h
      cases hr : runStages o query rows1
          (plan_execution_stages I o.planResp)
          ⟨r0, [], [], [], none⟩ with
      | error e =>
        rw [hr] at h
        simp at h
      | ok st =>
        rw [hr] at h
        dsimp only at h
        injection h with h2
        subst h2
        have hpres := runStages_preserves o query rows1 _ _ _ hr
        rcases hturn with hmem | hfresh
        · have hmap := merge_row_map_turn_of_mem rows1 st.row (by rw [hpres.1]; exact hmem)
          show ((merge_row rows1 st.row).map turnNumber).Nodup
          rw [map_turnNumber_factor, hmap, ← map_turnNumber_factor]
          exact hnodup
        · have hnm : st.row.turn ∉ rows1.map (fun r => r.turn) := by
            rw [hpres.1, hfresh]
            exact hfreshmem
          show ((merge_row rows1 st.row).map turnNumber).Nodup
          rw [merge_row_of_not_mem rows1 st.row hnm]
          exact happend st.row (hpres.1.trans hfresh)

/-- Claim C4 witness: a search run over the empty store saves a one-turn store
with distinct turn numbers. -/
theorem turn_uniqueness_after_merge_witness : ((demoRes.saved).map turnNumber).Nodup :=
  turn_uniqueness_after_merge plainOracles "weather" (some "search") []
    (by decide) (by decide) demoRes (by decide)


/-- Claim C10: with at least one stored turn carrying retrieval output,
`get_or_create_row` under the summarize intent returns a copy of the most
recent such turn with only the query replaced; after `orchestrate` merges and
saves, the stored turn with that turn number carries the new query. -/
theorem summarize_reuse_query_overwrite (query : String) (rows : List Row)
    (hdig : ∀ r ∈ rows, pyIsDigitStr r.turn = true)
    (hblank : ∀ r ∈ rows, noBlankFields r)
    (hnodupS : (rows.map (fun r => r.turn)).Nodup)
    (hex : ∃ r ∈ rows, r.search_results ≠ "") :
    ∃ m, m ∈ rows ∧ m.search_results ≠ ""
      ∧ (∀ r ∈ rows, r.search_results ≠ "" → turnNumber r ≤ turnNumber m)
      ∧ get_or_create_row query (some "summarize") rows = .ok ({ m with query := query }, rows)
      ∧ ∀ o : Oracles, ∃ res, orchestrate o query (some "summarize") rows = .ok res
          ∧ res.saved.map (fun r => r.turn) = rows.map (fun r => r.turn)
          ∧ ∀ r' ∈ res.saved, r'.turn = m.turn → r'.query = query := by
  set context := rows.filter (fun r => pyStrip r.search_results != "") with hctxdef
  have hctxne : context ≠ [] := by
    obtain ⟨r, hr, hsr⟩ := hex
    intro hc
    have hrc : r ∈ context := List.mem_filter.mpr ⟨hr, by
      simp only [bne_iff_ne, ne_eq, decide_not]
      simpa using (hblank r hr).1 hsr⟩
    rw [hc] at hrc
    simp at hrc
  have hctxsub : ∀ r ∈ context, r ∈ rows := fun r hr => (List.mem_filter.mp hr).1
  have hallc : context.all (fun r => (pyInt r.turn).isSome) = true := by
    rw [List.all_eq_true]
    intro r hr
    rw [pyInt_of_digitStr (hdig r (hctxsub r hr))]
    rfl
  haveI inst1 : IsTotal Row (fun a b => turnKeyI b ≤ turnKeyI a) := ⟨fun a b => le_total _ _⟩
  haveI inst2 : IsTrans Row (fun a b => turnKeyI b ≤ turnKeyI a) :=
    ⟨fun _ _ _ h1 h2 => le_trans h2 h1⟩
  have hsorted := List.sorted_insertionSort (fun a b => turnKeyI b ≤ turnKeyI a) context
  have hperm := List.perm_insertionSort (fun a b => turnKeyI b ≤ turnKeyI a) context
  cases hS : context.insertionSort (fun a b => turnKeyI b ≤ turnKeyI a) with
  | nil =>
    rw [hS] at hperm
    exact absurd (hperm.symm.eq_nil) hctxne
  | cons m t =>
    rw [hS] at hsorted hperm
    have hmem : m ∈ context := hperm.mem_iff.mp (by simp)
    have hmax : ∀ r ∈ context, turnKeyI r ≤ turnKeyI m := by
      intro r hr
      rcases List.mem_cons.mp (hperm.mem_iff.mpr hr) with rfl | hrt
      · exact le_refl _
      · exact (List.sorted_cons.mp hsorted).1 r hrt
    have hstripm : pyStrip m.search_results ≠ "" := by
      have h2 := (List.mem_filter.mp hmem).2
      simpa [bne_iff_ne] using h2
    have hmsr : m.search_results ≠ "" := by
      intro hc
      rw [hc] at hstripm
      exact hstripm rfl
    have hmaxN : ∀ r ∈ rows, r.search_results ≠ "" → turnNumber r ≤ turnNumber m := by
      intro r hr hsr
      have hrc : r ∈ context := List.mem_filter.mpr ⟨hr, by
        simp only [bne_iff_ne, ne_eq, decide_not]
        simpa using (hblank r hr).1 hsr⟩
      have h2 := hmax r hrc
      rw [turnKeyI_of_digitStr (hdig r hr),
        turnKeyI_of_digitStr (hdig m (hctxsub m hmem))] at h2
      exact_mod_cast h2
    have hctxemp : context.isEmpty = false := by
      simp [List.isEmpty_iff, hctxne]
    have hg : get_or_create_row query (some "summarize") rows
        = .ok ({ m with query := query }, rows) := by
      unfold get_or_create_row
      rw [if_pos rfl]
      dsimp only
      rw [← hctxdef, hctxemp]
      rw [if_neg (by simp), if_pos hallc, hS]
      rfl
    refine ⟨m, hctxsub m hmem, hmsr, hmaxN, hg, ?_⟩
    intro o
    have hne2 : (rows.filter hasContentStrip).isEmpty = false := by
      have hmc : m ∈ rows.filter hasContentStrip := List.mem_filter.mpr ⟨hctxsub m hmem, by
        unfold hasContentStrip
        simp [bne_iff_ne, hstripm]⟩
      cases hcc : rows.filter hasContentStrip with
      | nil =>
        rw [hcc] at hmc
        simp at hmc
      | cons _ _ => rfl
    have hall2 : (rows.filter hasContentStrip).all (fun r => (pyInt r.turn).isSome) = true := by
      rw [List.all_eq_true]
      intro r hr
      rw [pyInt_of_digitStr (hdig r (List.mem_filter.mp hr).1)]
      rfl
    obtain ⟨st, hst⟩ := runStages_ok o query rows hne2 hall2
      (plan_execution_stages "summarize" o.planResp) ⟨{ m with query := query }, [], [], [], none⟩
    have hpres := runStages_preserves o query rows _ _ _ hst
    refine ⟨⟨st.row, merge_row rows st.row, plan_execution_stages "summarize" o.planResp,
      st.executed, st.searchCalls, st.summCalls, 0, st.msgsKey⟩, ?_, ?_, ?_⟩
    · unfold orchestrate
      dsimp only
      rw [if_neg (by decide), hg]
      dsimp only
      rw [hst]
    · show (merge_row rows st.row).map (fun r => r.turn) = rows.map (fun r => r.turn)
      apply merge_row_map_turn_of_mem
      rw [hpres.1]
      exact List.mem_map.mpr ⟨m, hctxsub m hmem, rfl⟩
    · intro r' hr' ht'
      have heq := merge_row_unique rows st.row hnodupS r' hr' (by rw [ht', hpres.1])
      rw [heq, hpres.2]

/-- Claim C10 witness: on the five-turn store, turn 5 is reused, its query is
overwritten, and the saved store keeps the same turn strings. -/
theorem summarize_reuse_query_overwrite_witness :
    get_or_create_row "brand new" (some "summarize") store5
      = .ok ({ (mkRow "q5" "5" "E" "") with query := "brand new" }, store5)
    ∧ ∃ res, orchestrate plainOracles "brand new" (some "summarize") store5 = .ok res
        ∧ res.saved.map (fun r => r.turn) = store5.map (fun r => r.turn)
        ∧ ∀ r' ∈ res.saved, r'.turn = "5" → r'.query = "brand new" := by
  obtain ⟨m, hmem, hmsr, hmax, hg, horch⟩ :=
    summarize_reuse_query_overwrite "brand new" store5
      (by decide) (by decide) (by decide) ⟨mkRow "q5" "5" "E" "", by decide, by decide⟩
  have h5 := hmax (mkRow "q5" "5" "E" "") (by decide) (by decide)
  have hm : m = mkRow "q5" "5" "E" "" := by
    have hmem5 : m ∈ [mkRow "q1" "1" "" "", mkRow "q5" "5" "E" "", mkRow "q2" "2" "B" "",
        mkRow "q3" "3" "" "C", mkRow "q4" "4" "" ""] := hmem
    fin_cases hmem5
    · exact absurd rfl hmsr
    · rfl
    · exact absurd h5 (by decide)
    · exact absurd rfl hmsr
    · exact absurd rfl hmsr
  subst hm
  refine ⟨hg, ?_⟩
  obtain ⟨res, h1, h2, h3⟩ := horch plainOracles
  exact ⟨res, h1, h2, fun r' hr' ht' => h3 r' hr' ht'⟩


end MCPAgent